import Mathlib

/-!
Verification development for the icalfilter event-filtering program.

The program classifies calendar events into integer groups with
regex-based match rules (`MatchTree`), removes classified events whose
start date falls in a declared exclusion window (`RemoveTree`), and
retains exactly the events that are classified and not excluded
(`main_io`'s retain loop).

Modelling conventions:
* Rust strings are `List Char` (`Str`).
* A compiled regular expression is modelled by its matcher function
  `Str → Bool` (the regex engine is an external crate; only the result
  of `Regex::is_match` is observable to this program).
* `HashMap` is modelled as an association list with unique keys kept in
  ascending key order: the source iterates `HashMap`s in an unspecified
  order, and the ascending-key order is the canonical determinisation
  (for `RemoveTree`, the source itself sorts rules by group id).
* A Rust panic (`expect` on a failed `DTSTART` derivation) is modelled
  by `none` in an `Option`-typed result.
-/

namespace ICalFilter

/-- Rust strings, modelled as lists of characters. -/
abbrev Str := List Char

/-- A compiled regular expression, modelled by its matcher function
(`regex::Regex::is_match`). -/
abbrev Regex := Str → Bool

/-! ## Dates and timestamps (chrono `NaiveDate` / `NaiveDateTime`) -/

/-- A calendar date (chrono `NaiveDate`). -/
structure Date where
  year : Int
  month : Nat
  day : Nat
deriving DecidableEq, Repr

/-- Chronological order on dates (chrono `NaiveDate`'s `Ord`):
lexicographic on year, month, day. -/
def Date.le (a b : Date) : Bool :=
  a.year < b.year ||
    (a.year == b.year &&
      (a.month < b.month || (a.month == b.month && a.day ≤ b.day)))

/-- A timestamp (chrono `NaiveDateTime`); `date` models
`NaiveDateTime::date`. -/
structure DateTime where
  date : Date
  hour : Nat
  minute : Nat
  second : Nat
deriving DecidableEq, Repr

/-- Leap-year test of the proleptic Gregorian calendar used by chrono. -/
def isLeapYear (y : Int) : Bool :=
  (y % 4 == 0 && y % 100 != 0) || y % 400 == 0

/-- Number of days of month `m` of year `y` (0 for an invalid month). -/
def daysInMonth (y : Int) (m : Nat) : Nat :=
  match m with
  | 1 => 31
  | 2 => if isLeapYear y then 29 else 28
  | 3 => 31
  | 4 => 30
  | 5 => 31
  | 6 => 30
  | 7 => 31
  | 8 => 31
  | 9 => 30
  | 10 => 31
  | 11 => 30
  | 12 => 31
  | _ => 0

/-- Numeric value of a decimal digit character. -/
def digitVal (c : Char) : Nat := c.toNat - ('0').toNat

/-- Two decimal digits as a number. -/
def d2 (a b : Char) : Nat := 10 * digitVal a + digitVal b

/-- Four decimal digits as a number. -/
def d4 (a b c d : Char) : Nat :=
  1000 * digitVal a + 100 * digitVal b + 10 * digitVal c + digitVal d

/-- Validity of a parsed calendar date. -/
def validDate (y : Int) (m d : Nat) : Bool :=
  1 ≤ m && m ≤ 12 && 1 ≤ d && d ≤ daysInMonth y m

/-- Parse a timestamp in the fixed `DATE_TIME_FORMAT` of the source,
`%Y%m%dT%H%M%SZ` (for example `20240301T120000Z`): four year digits,
two month digits, two day digits, a literal `T`, six time digits and a
literal `Z`, with calendar and clock validity checks as performed by
chrono. Any other shape fails. -/
def parseDateTime (s : Str) : Option DateTime :=
  match s with
  | [y1, y2, y3, y4, m1, m2, a1, a2, 'T', h1, h2, n1, n2, s1, s2, 'Z'] =>
    if ([y1, y2, y3, y4, m1, m2, a1, a2, h1, h2, n1, n2, s1, s2].all Char.isDigit) then
      let y : Int := (d4 y1 y2 y3 y4 : Nat)
      let mo := d2 m1 m2
      let da := d2 a1 a2
      let ho := d2 h1 h2
      let mi := d2 n1 n2
      let se := d2 s1 s2
      if validDate y mo da && ho < 24 && mi < 60 && se ≤ 60 then
        some ⟨⟨y, mo, da⟩, ho, mi, se⟩
      else none
    else none
  | _ => none

/-- Parse a date in the `%Y-%m-%d` format used by remove rules (for
example `2024-03-01`), with calendar validity as checked by chrono. -/
def parseDate (s : Str) : Option Date :=
  match s with
  | [y1, y2, y3, y4, '-', m1, m2, '-', a1, a2] =>
    if ([y1, y2, y3, y4, m1, m2, a1, a2].all Char.isDigit) then
      let y : Int := (d4 y1 y2 y3 y4 : Nat)
      let mo := d2 m1 m2
      let da := d2 a1 a2
      if validDate y mo da then some ⟨y, mo, da⟩ else none
    else none
  | _ => none

/-! ## Events (`src/event.rs`, and the `ical` crate's `IcalEvent`) -/

/-- One property of a calendar event: a name and an optional value
(the `ical` crate's `Property`). -/
structure EventProperty where
  name : Str
  value : Option Str
deriving DecidableEq, Repr

/-- A calendar event: an ordered list of properties, possibly with
duplicate names (the `ical` crate's `IcalEvent`). -/
structure Event where
  properties : List EventProperty
deriving DecidableEq, Repr

/-- The property name `DTSTART`. -/
def dtstartKey : Str := "DTSTART".toList

/-- Model of `Event::prop` (`src/event.rs` lines 36-41): the value of the first
property with the given name; `none` when the property is absent or has
no value. -/
def Event.prop (e : Event) (name : Str) : Option Str :=
  (e.properties.find? (fun p => p.name == name)).bind (fun p => p.value)

/-- Derivation of the parsed `DTSTART` timestamp (`src/event.rs` lines
70-80, re-done inline in `src/main.rs` lines 129-141): locate the first
`DTSTART` property, take its value, parse it in `DATE_TIME_FORMAT`.
`none` collapses the three failure cases (property missing, property
valueless, value unparsable). -/
def Event.dtstart (e : Event) : Option DateTime :=
  ((e.properties.find? (fun p => p.name == dtstartKey)).bind
    (fun p => p.value)).bind parseDateTime

/-- The event's start date: `event.dtstart()?.date()`. -/
def Event.startDate (e : Event) : Option Date :=
  e.dtstart.map DateTime.date

/-! ## String splitting and integer parsing (Rust `str::splitn`,
`str::parse::<isize>`) -/

/-- Split off everything before the first occurrence of `sep`:
`some (before, after)` when `sep` occurs, `none` otherwise. -/
def breakAtFirst (sep : Char) : Str → Option (Str × Str)
  | [] => none
  | c :: rest =>
    if c == sep then some ([], rest)
    else (breakAtFirst sep rest).map (fun p => (c :: p.1, p.2))

/-- Rust `str::splitn(n, sep)` collected to a vector: at most `n`
fields, the last field keeping any remaining separators. `splitn 0`
would yield an empty iterator in Rust; the source only uses `n = 2` and
`n = 3`. -/
def splitn : Nat → Char → Str → List Str
  | 0, _, _ => []
  | 1, _, s => [s]
  | Nat.succ (Nat.succ n), sep, s =>
    match breakAtFirst sep s with
    | none => [s]
    | some (pre, post) => pre :: splitn (Nat.succ n) sep post

/-- Digits of a decimal numeral, most significant first, as a number;
`none` when empty or containing a non-digit. -/
def parseNatDigits (s : Str) : Option Nat :=
  if s ≠ [] && s.all Char.isDigit then
    some (s.foldl (fun acc c => 10 * acc + digitVal c) 0)
  else none

/-- Largest `isize` value (the source targets 64-bit `isize`). -/
def isizeMaxN : Nat := 2 ^ 63 - 1

/-- Rust `str::parse::<isize>`: an optional sign followed by one or
more digits, within the 64-bit signed range; anything else fails. -/
def parseIsize (s : Str) : Option Int :=
  match s with
  | '+' :: rest =>
    (parseNatDigits rest).bind
      (fun n => if n ≤ isizeMaxN then some (n : Int) else none)
  | '-' :: rest =>
    (parseNatDigits rest).bind
      (fun n => if n ≤ isizeMaxN + 1 then some (-(n : Int)) else none)
  | _ =>
    (parseNatDigits s).bind
      (fun n => if n ≤ isizeMaxN then some (n : Int) else none)

/-! ## Match rules and the match tree (`src/rules.rs` lines 10-112) -/

/-- Model of `MatchRule` (`src/rules.rs` lines 72-77): group id, property name
and compiled pattern of one inclusion rule. -/
structure MatchRule where
  group_id : Int
  property : Str
  value : Regex

/-- Model of `MatchRuleParseError` (`src/rules.rs` lines 79-87). -/
inductive MatchRuleParseError where
  | MissingEqualSign : MatchRuleParseError
  | RegexParseError : MatchRuleParseError
  | GroupIdParseError : MatchRuleParseError
deriving DecidableEq, Repr

/-- Model of `MatchRule::from_str` (`src/rules.rs` lines 89-112), parameterised
by the regex compiler of the external crate (`Regex::new`, modelled as
`compile`): split once on `,`, split the last part once on `=`; fail
with `MissingEqualSign` when there is no `=`; otherwise parse the group
id when a group part is present (default 0) and compile the pattern. -/
def MatchRule.fromStr (compile : Str → Option Regex) (s : Str) :
    Except MatchRuleParseError MatchRule :=
  let group_split := splitn 2 ',' s
  match splitn 2 '=' (group_split.getLastD s) with
  | [prop, pat] =>
    match
      (if group_split.length == 2 then
        match parseIsize (group_split.headD []) with
        | some n => Except.ok n
        | none => Except.error MatchRuleParseError.GroupIdParseError
      else Except.ok 0 : Except MatchRuleParseError Int) with
    | Except.error err => Except.error err
    | Except.ok gid =>
      match compile pat with
      | some re => Except.ok ⟨gid, prop, re⟩
      | none => Except.error MatchRuleParseError.RegexParseError
  | _ => Except.error MatchRuleParseError.MissingEqualSign

/-- Model of `MatchGroup` (`src/rules.rs` lines 24-27): the per-group mapping
from property name to pattern, modelled as an association list with
unique keys. -/
structure MatchGroup where
  properties : List (Str × Regex)

/-- Model of `HashMap::insert` on the property map: replace the binding of an
existing key in place, append a new key. -/
def insertProp : List (Str × Regex) → Str × Regex → List (Str × Regex)
  | [], kv => [kv]
  | (k, v) :: rest, kv =>
    if k == kv.1 then (k, kv.2) :: rest
    else (k, v) :: insertProp rest kv

/-- Model of `MatchGroup::add_rule` (`src/rules.rs` lines 30-32). -/
def MatchGroup.add_rule (g : MatchGroup) (r : MatchRule) : MatchGroup :=
  ⟨insertProp g.properties (r.property, r.value)⟩

/-- One property-pattern pair checked against an event (the closure body
of `MatchGroup::is_match`, `src/rules.rs` lines 36-47): find the first
event property with that name; the pair holds when it exists, has a
value, and the value matches the pattern. -/
def propPairMatch (e : Event) (pr : Str × Regex) : Bool :=
  match e.properties.find? (fun ep => ep.name == pr.1) with
  | some ep =>
    match ep.value with
    | some ev => pr.2 ev
    | none => false
  | none => false

/-- Model of `MatchGroup::is_match` (`src/rules.rs` lines 34-49): all pairs of
the group hold. -/
def MatchGroup.is_match (g : MatchGroup) (e : Event) : Bool :=
  g.properties.all (propPairMatch e)

/-- Model of `MatchTree` (`src/rules.rs` lines 10-13): the mapping from group id
to `MatchGroup`, modelled as an association list with unique keys in
ascending key order (the canonical determinisation of `HashMap`'s
unspecified iteration order). -/
structure MatchTree where
  groups : List (Int × MatchGroup)

/-- One step of `MatchTree::from` (`src/rules.rs` lines 56-65): route a
rule to its group, creating the group when absent (insertion keeps the
ascending key order). -/
def treeInsertRule : List (Int × MatchGroup) → MatchRule → List (Int × MatchGroup)
  | [], r => [(r.group_id, MatchGroup.add_rule ⟨[]⟩ r)]
  | (k, g) :: rest, r =>
    if r.group_id == k then (k, g.add_rule r) :: rest
    else if r.group_id < k then
      (r.group_id, MatchGroup.add_rule ⟨[]⟩ r) :: (k, g) :: rest
    else (k, g) :: treeInsertRule rest r

/-- Model of `MatchTree::from` (`src/rules.rs` lines 52-69): fold the rule list
into the tree. -/
def MatchTree.fromRules (rules : List MatchRule) : MatchTree :=
  ⟨rules.foldl treeInsertRule []⟩

/-- Model of `MatchTree::is_match` (`src/rules.rs` lines 16-21): the id of the
first group (in iteration order) matching the event, if any. -/
def MatchTree.is_match (t : MatchTree) (e : Event) : Option Int :=
  (t.groups.find? (fun g => g.2.is_match e)).map (fun g => g.1)

/-! ## Remove rules and the remove tree (`src/rules.rs` lines 114-226) -/

/-- Model of `RemoveMatchRule` (`src/rules.rs` lines 115-121). -/
structure RemoveMatchRule where
  group_id : Int
  single_day : Bool
  start_date : Option Date
  end_date : Option Date
deriving DecidableEq, Repr

/-- The date-window test of `RemoveMatchRule::is_match`
(`src/rules.rs` lines 130-139), given the event's already-derived start
date. -/
def RemoveMatchRule.matchesDate (r : RemoveMatchRule) (date : Date) : Bool :=
  if r.single_day then
    match r.start_date with
    | some sd => sd == date
    | none => false
  else
    match r.start_date, r.end_date with
    | some sd, some ed => Date.le sd date && Date.le date ed
    | none, some ed => Date.le date ed
    | some sd, none => Date.le sd date
    | none, none => true

/-- Model of `RemoveMatchRule::is_match` (`src/rules.rs` lines 124-141): derive
the event's start date — `expect`, i.e. panic (`none`), when the
derivation fails — then test the window. -/
def RemoveMatchRule.is_match (r : RemoveMatchRule) (e : Event) : Option Bool :=
  (Event.startDate e).map r.matchesDate

/-- Model of `RemoveRuleParseError` (`src/rules.rs` lines 143-149). -/
inductive RemoveRuleParseError where
  | GroupIdParseError : RemoveRuleParseError
  | DateParseError : RemoveRuleParseError
deriving DecidableEq, Repr

/-- Parse one date field of a remove rule, lifting the chrono error. -/
def parseDateField (s : Str) : Except RemoveRuleParseError Date :=
  match parseDate s with
  | some d => Except.ok d
  | none => Except.error RemoveRuleParseError.DateParseError

/-- Model of `RemoveMatchRule::from_str` (`src/rules.rs` lines 151-197): split
into at most three fields on `,`; the first field is the group id
(parsed before the arity dispatch); one field gives the unrestricted
window, two fields the single-day rule, three fields the range rule
with empty fields as open bounds. -/
def RemoveMatchRule.fromStr (s : Str) :
    Except RemoveRuleParseError RemoveMatchRule :=
  let split := splitn 3 ',' s
  match parseIsize (split.headD []) with
  | none => Except.error RemoveRuleParseError.GroupIdParseError
  | some group_id =>
    match split with
    | [_] => Except.ok ⟨group_id, false, none, none⟩
    | [_, f1] =>
      match parseDateField f1 with
      | Except.error err => Except.error err
      | Except.ok sd => Except.ok ⟨group_id, true, some sd, none⟩
    | [_, f1, f2] =>
      match
        (if f1.isEmpty then Except.ok none
         else (parseDateField f1).map some : Except RemoveRuleParseError (Option Date)) with
      | Except.error err => Except.error err
      | Except.ok sd =>
        match
          (if f2.isEmpty then Except.ok none
           else (parseDateField f2).map some : Except RemoveRuleParseError (Option Date)) with
        | Except.error err => Except.error err
        | Except.ok ed => Except.ok ⟨group_id, false, sd, ed⟩
    | _ => Except.error RemoveRuleParseError.GroupIdParseError

/-- Model of `RemoveTree` (`src/rules.rs` lines 199-202): the mapping from group
id to the list of remove rules of that group, modelled as an
association list with unique keys in ascending key order (the source
itself sorts the rules by group id before grouping). -/
structure RemoveTree where
  rules : List (Int × List RemoveMatchRule)
deriving Repr

/-- Association-list lookup (`HashMap::get`). -/
def lookupGroup {α : Type} (k : Int) : List (Int × α) → Option α
  | [] => none
  | (k2, v) :: rest => if k == k2 then some v else lookupGroup k rest

/-- One step of `RemoveTree::from`: place a rule at the end of its
group's list, creating the group when absent in ascending key order. -/
def removeInsert : List (Int × List RemoveMatchRule) → RemoveMatchRule →
    List (Int × List RemoveMatchRule)
  | [], r => [(r.group_id, [r])]
  | (k, rs) :: rest, r =>
    if r.group_id == k then (k, rs ++ [r]) :: rest
    else if r.group_id < k then (r.group_id, [r]) :: (k, rs) :: rest
    else (k, rs) :: removeInsert rest r

/-- Model of `RemoveTree::from` (`src/rules.rs` lines 212-226): sort the rules
by group id and group consecutive runs, modelled as a fold into the
sorted association list. -/
def RemoveTree.fromRules (rs : List RemoveMatchRule) : RemoveTree :=
  ⟨rs.foldl removeInsert []⟩

/-- Model of `RemoveTree::is_match` (`src/rules.rs` lines 205-210): `none` of
the outer `Option` is the panic propagated from a rule evaluation; the
inner `Option Bool` is the source's `Option<bool>` (`none` when the
group has no rules, otherwise whether any rule of the group matches).
Evaluating `any` on a non-empty rule list forces the event's start-date
derivation, so an underivable start date panics exactly when the list
is non-empty. -/
def RemoveTree.is_match (t : RemoveTree) (group : Int) (e : Event) :
    Option (Option Bool) :=
  match lookupGroup group t.rules with
  | none => some none
  | some rs =>
    match rs with
    | [] => some (some false)
    | _ :: _ =>
      match Event.startDate e with
      | none => none
      | some d => some (some (rs.any (fun r => r.matchesDate d)))

/-! ## The filtering pipeline (`src/main.rs` lines 265-325) -/

/-- The retain predicate of `main_io` (`src/main.rs` lines 277-285):
keep an event when the classifier assigns it a group and neither that
group's remove rules nor the wildcard group `-1`'s remove rules match
(`!= Some(true)`, with Rust's short-circuiting `&&`). `none` is a
propagated panic. -/
def keepEvent (mt : MatchTree) (rt : RemoveTree) (e : Event) : Option Bool :=
  match mt.is_match e with
  | none => some false
  | some id =>
    match rt.is_match id e with
    | none => none
    | some r1 =>
      if r1 == some true then some false
      else
        match rt.is_match (-1) e with
        | none => none
        | some r2 => some (r2 != some true)

/-- Model of `Vec::retain` with the `keepEvent` predicate: the filtered event
list of one calendar, `none` when a predicate evaluation panics. -/
def filterEvents (mt : MatchTree) (rt : RemoveTree) :
    List Event → Option (List Event)
  | [] => some []
  | e :: rest =>
    match keepEvent mt rt e with
    | none => none
    | some true => (filterEvents mt rt rest).map (fun l => e :: l)
    | some false => filterEvents mt rt rest

/-- Failure modes of a whole run: a rule-parse failure at startup
(`argh` rejects the command line before `main_io` runs) or a panic
while filtering. -/
inductive RunError where
  | includeParse : MatchRuleParseError → RunError
  | removeParse : RemoveRuleParseError → RunError
  | panicked : RunError
deriving DecidableEq, Repr

/-- Parse every `-I` option value (`Opts::include`); the first failure
aborts. -/
def parseIncludes (compile : Str → Option Regex) :
    List Str → Except MatchRuleParseError (List MatchRule)
  | [] => Except.ok []
  | s :: rest =>
    match MatchRule.fromStr compile s with
    | Except.error err => Except.error err
    | Except.ok r =>
      match parseIncludes compile rest with
      | Except.error err => Except.error err
      | Except.ok rs => Except.ok (r :: rs)

/-- Parse every `-R` option value (`Opts::remove`); the first failure
aborts. -/
def parseRemoves : List Str → Except RemoveRuleParseError (List RemoveMatchRule)
  | [] => Except.ok []
  | s :: rest =>
    match RemoveMatchRule.fromStr s with
    | Except.error err => Except.error err
    | Except.ok r =>
      match parseRemoves rest with
      | Except.error err => Except.error err
      | Except.ok rs => Except.ok (r :: rs)

/-- Filter every calendar of the input in order (`main_io`'s loop),
propagating a panic. -/
def runCalendars (mt : MatchTree) (rt : RemoveTree) :
    List (List Event) → Except RunError (List (List Event))
  | [] => Except.ok []
  | c :: rest =>
    match filterEvents mt rt c with
    | none => Except.error RunError.panicked
    | some fc =>
      match runCalendars mt rt rest with
      | Except.error err => Except.error err
      | Except.ok fcs => Except.ok (fc :: fcs)

/-- Model of `main` (`src/main.rs` lines 294-325): parse the rule options —
failures abort before any event is read — build both trees and run the
filter over the input calendars. -/
def runMain (compile : Str → Option Regex) (includes removes : List Str)
    (cals : List (List Event)) : Except RunError (List (List Event)) :=
  match parseIncludes compile includes with
  | Except.error err => Except.error (RunError.includeParse err)
  | Except.ok mrs =>
    match parseRemoves removes with
    | Except.error err => Except.error (RunError.removeParse err)
    | Except.ok rrs =>
      runCalendars (MatchTree.fromRules mrs) (RemoveTree.fromRules rrs) cals

/-! ## Helper lemmas -/

/-- A successful association-list lookup comes from a member. -/
theorem lookupGroup_mem {α : Type} {k : Int} {v : α} {l : List (Int × α)}
    (h : lookupGroup k l = some v) : (k, v) ∈ l := by
  induction l with
  | nil => simp [lookupGroup] at h
  | cons kv rest ih =>
    obtain ⟨k2, v2⟩ := kv
    simp only [lookupGroup] at h
    by_cases hk : k = k2
    · subst hk
      simp only [beq_self_eq_true, if_true] at h
      obtain rfl := Option.some_injective _ h
      exact List.mem_cons_self _ _
    · simp only [beq_eq_false_iff_ne.mpr hk, if_false] at h
      exact List.mem_cons_of_mem _ (ih h)

/-- Parsing helper: `parseDateField` succeeds exactly when `parseDate` does. -/
theorem parseDateField_ok {s : Str} {d : Date}
    (h : parseDateField s = Except.ok d) : parseDate s = some d := by
  unfold parseDateField at h
  cases hp : parseDate s with
  | none => rw [hp] at h; exact absurd h (by simp)
  | some d2 => rw [hp] at h; obtain rfl := Except.ok.inj h; rfl

/-! ## C3: an underivable start date aborts every remove-rule check -/

/-- C3: evaluating a remove rule against an event whose start date
cannot be derived (`DTSTART` missing, valueless, or unparsable) is an
unrecoverable failure: `RemoveMatchRule::is_match` panics (modelled by
`none`) rather than returning a non-match outcome, for every rule
regardless of its mode. -/
theorem C3_remove_rule_aborts (r : RemoveMatchRule) (e : Event)
    (h : Event.startDate e = none) : r.is_match e = none := by
  simp [RemoveMatchRule.is_match, h]

/-- Witness for C3 at a concrete rule and an event without `DTSTART`. -/
theorem C3_remove_rule_aborts_witness :
    Event.startDate ⟨[]⟩ = none ∧
      RemoveMatchRule.is_match ⟨2, false, none, none⟩ ⟨[]⟩ = none :=
  ⟨rfl, C3_remove_rule_aborts ⟨2, false, none, none⟩ ⟨[]⟩ rfl⟩

/-! ## C5: two-field remove rules are single-day rules -/

/-- C5: a remove rule parsed from exactly two comma-separated fields is
a single-day rule: for every event with a derivable start date it
matches if and only if that start date equals the rule's `start_date`
(which is the parsed second field). -/
theorem C5_two_fields_single_day (s f0 f1 : Str) (r : RemoveMatchRule)
    (hsplit : splitn 3 ',' s = [f0, f1])
    (hok : RemoveMatchRule.fromStr s = Except.ok r) :
    ∃ sd, parseDate f1 = some sd ∧ r.single_day = true ∧
      r.start_date = some sd ∧
      ∀ (e : Event) (d : Date), Event.startDate e = some d →
        (r.is_match e = some true ↔ d = sd) := by
  simp only [RemoveMatchRule.fromStr, hsplit] at hok
  cases hgi : parseIsize ([f0, f1].headD []) with
  | none => rw [hgi] at hok; exact absurd hok (by simp)
  | some gid =>
    rw [hgi] at hok
    cases hpd : parseDateField f1 with
    | error err => rw [hpd] at hok; exact absurd hok (by simp)
    | ok sd =>
      rw [hpd] at hok
      obtain rfl := (Except.ok.inj hok).symm
      refine ⟨sd, parseDateField_ok hpd, rfl, rfl, ?_⟩
      intro e d hd
      have hm : RemoveMatchRule.is_match ⟨gid, true, some sd, none⟩ e = some (sd == d) := by
        simp [RemoveMatchRule.is_match, hd, RemoveMatchRule.matchesDate]
      rw [hm]
      simp only [Option.some.injEq]
      exact ⟨fun h2 => (beq_iff_eq.mp h2).symm, fun h2 => beq_iff_eq.mpr h2.symm⟩

/-- Concrete two-field remove rule string. -/
def c5Str : Str := "2,2024-03-01".toList

/-- First field of `c5Str`. -/
def c5F0 : Str := "2".toList

/-- Second field of `c5Str`. -/
def c5F1 : Str := "2024-03-01".toList

/-- Witness for C5 at the concrete rule string `2,2024-03-01`. -/
theorem C5_two_fields_single_day_witness :
    splitn 3 ',' c5Str = [c5F0, c5F1] ∧
    RemoveMatchRule.fromStr c5Str = Except.ok ⟨2, true, some ⟨2024, 3, 1⟩, none⟩ ∧
    ∃ sd, parseDate c5F1 = some sd ∧ true = true ∧ some ⟨2024, 3, 1⟩ = some sd ∧
      ∀ (e : Event) (d : Date), Event.startDate e = some d →
        (RemoveMatchRule.is_match ⟨2, true, some ⟨2024, 3, 1⟩, none⟩ e = some true ↔ d = sd) :=
  ⟨rfl, rfl, C5_two_fields_single_day c5Str c5F0 c5F1 _ rfl rfl⟩

/-! ## C4: three-field remove rules are inclusive range rules -/

/-- C4: a remove rule parsed from three comma-separated fields is a
range rule: it matches an event exactly when the event's start date
lies in `[start_date, end_date]` inclusive, where an empty field leaves
that side unbounded (empty start matches all dates up to and including
the end date, empty end all dates from the start date onward, both
empty every date). -/
theorem C4_three_fields_range (s f0 f1 f2 : Str) (r : RemoveMatchRule)
    (hsplit : splitn 3 ',' s = [f0, f1, f2])
    (hok : RemoveMatchRule.fromStr s = Except.ok r) :
    r.single_day = false ∧
    (r.start_date = none ↔ f1 = []) ∧
    (r.end_date = none ↔ f2 = []) ∧
    ∀ (e : Event) (d : Date), Event.startDate e = some d →
      (r.is_match e = some true ↔
        ((∀ sd, r.start_date = some sd → Date.le sd d = true) ∧
         (∀ ed, r.end_date = some ed → Date.le d ed = true))) := by
  simp only [RemoveMatchRule.fromStr, hsplit] at hok
  cases hgi : parseIsize ([f0, f1, f2].headD []) with
  | none => rw [hgi] at hok; exact absurd hok (by simp)
  | some gid =>
    rw [hgi] at hok
    have hfld : ∀ (f : Str) (o : Option Date), (if f.isEmpty then Except.ok none
        else (parseDateField f).map some : Except RemoveRuleParseError (Option Date)) =
          Except.ok o → (o = none ↔ f = []) := by
      intro f o h
      by_cases h1 : f.isEmpty
      · rw [if_pos h1] at h
        obtain rfl := (Except.ok.inj h).symm
        simpa [List.isEmpty_iff] using h1
      · rw [if_neg h1] at h
        cases hpd : parseDateField f with
        | error err => rw [hpd] at h; exact absurd h (by simp [Except.map])
        | ok sd =>
          rw [hpd] at h
          simp only [Except.map] at h
          obtain rfl := (Except.ok.inj h).symm
          simp only [List.isEmpty_iff] at h1
          simp [h1]
    cases hf1 : (if f1.isEmpty then Except.ok none
        else (parseDateField f1).map some : Except RemoveRuleParseError (Option Date)) with
    | error err => rw [hf1] at hok; exact absurd hok (by simp)
    | ok sd =>
      rw [hf1] at hok
      cases hf2 : (if f2.isEmpty then Except.ok none
          else (parseDateField f2).map some : Except RemoveRuleParseError (Option Date)) with
      | error err => rw [hf2] at hok; exact absurd hok (by simp)
      | ok ed =>
        rw [hf2] at hok
        obtain rfl := (Except.ok.inj hok).symm
        refine ⟨rfl, hfld f1 sd hf1, hfld f2 ed hf2, ?_⟩
        intro e d hd
        cases sd with
        | none =>
          cases ed with
          | none => simp [RemoveMatchRule.is_match, hd, RemoveMatchRule.matchesDate]
          | some edv => simp [RemoveMatchRule.is_match, hd, RemoveMatchRule.matchesDate]
        | some sdv =>
          cases ed with
          | none => simp [RemoveMatchRule.is_match, hd, RemoveMatchRule.matchesDate]
          | some edv =>
            simp [RemoveMatchRule.is_match, hd, RemoveMatchRule.matchesDate,
              Bool.and_eq_true]

/-- Concrete three-field remove rule string. -/
def c4Str : Str := "2,2024-03-01,2024-03-10".toList

/-- First field of `c4Str`. -/
def c4F0 : Str := "2".toList

/-- Second field of `c4Str`. -/
def c4F1 : Str := "2024-03-01".toList

/-- Third field of `c4Str`. -/
def c4F2 : Str := "2024-03-10".toList

/-- The rule parsed from `c4Str`. -/
def c4Rule : RemoveMatchRule := ⟨2, false, some ⟨2024, 3, 1⟩, some ⟨2024, 3, 10⟩⟩

/-- Witness for C4 at the concrete rule string `2,2024-03-01,2024-03-10`. -/
theorem C4_three_fields_range_witness :
    splitn 3 ',' c4Str = [c4F0, c4F1, c4F2] ∧
    RemoveMatchRule.fromStr c4Str = Except.ok c4Rule ∧
    (c4Rule.single_day = false ∧
     (c4Rule.start_date = none ↔ c4F1 = []) ∧
     (c4Rule.end_date = none ↔ c4F2 = []) ∧
     ∀ (e : Event) (d : Date), Event.startDate e = some d →
       (c4Rule.is_match e = some true ↔
         ((∀ sd, c4Rule.start_date = some sd → Date.le sd d = true) ∧
          (∀ ed, c4Rule.end_date = some ed → Date.le d ed = true)))) :=
  ⟨rfl, rfl, C4_three_fields_range c4Str c4F0 c4F1 c4F2 c4Rule rfl rfl⟩

/-! ## Sorted association lists

Both trees keep their groups in ascending key order (the canonical
determinisation of `HashMap` iteration); these lemmas characterise
lookups in the built trees. -/

/-- Strictly ascending keys. -/
def keysSorted {α : Type} : List (Int × α) → Prop
  | [] => True
  | [_] => True
  | x :: y :: rest => x.1 < y.1 ∧ keysSorted (y :: rest)

/-- The tail of a sorted association list is sorted. -/
theorem keysSorted_tail {α : Type} {x : Int × α} {t : List (Int × α)}
    (h : keysSorted (x :: t)) : keysSorted t := by
  cases t with
  | nil => trivial
  | cons y rest => exact h.2

/-- In a sorted association list, the head key is smaller than every
key of the tail. -/
theorem keysSorted_head_lt {α : Type} {x : Int × α} {t : List (Int × α)}
    (h : keysSorted (x :: t)) : ∀ kv ∈ t, x.1 < kv.1 := by
  induction t generalizing x with
  | nil => intro kv hkv; simp at hkv
  | cons y rest ih =>
    intro kv hkv
    rcases List.mem_cons.mp hkv with rfl | hkv2
    · exact h.1
    · exact lt_trans h.1 (ih h.2 kv hkv2)

/-- Lookup misses every list whose keys all differ from the query. -/
theorem lookupGroup_eq_none {α : Type} {g : Int} {t : List (Int × α)}
    (h : ∀ kv ∈ t, g ≠ kv.1) : lookupGroup g t = none := by
  induction t with
  | nil => rfl
  | cons kv rest ih =>
    obtain ⟨k, v⟩ := kv
    have hne : g ≠ k := h (k, v) (List.mem_cons_self _ _)
    simp only [lookupGroup, beq_eq_false_iff_ne.mpr hne, if_false]
    exact ih (fun kv2 hkv2 => h kv2 (List.mem_cons_of_mem _ hkv2))

/-! ## C6: one-field remove rules exclude unconditionally -/

/-- Every key of `removeInsert t r` is `r`'s key or a key of `t`. -/
theorem removeInsert_keys {t : List (Int × List RemoveMatchRule)}
    {r : RemoveMatchRule} {y : Int × List RemoveMatchRule}
    (hy : y ∈ removeInsert t r) :
    y.1 = r.group_id ∨ ∃ kv ∈ t, y.1 = kv.1 := by
  induction t with
  | nil =>
    simp only [removeInsert, List.mem_singleton] at hy
    exact Or.inl (by rw [hy])
  | cons z rest ih =>
    obtain ⟨zk, zv⟩ := z
    by_cases hz : r.group_id = zk
    · simp only [removeInsert, beq_iff_eq.mpr hz, if_true] at hy
      rcases List.mem_cons.mp hy with rfl | hy2
      · exact Or.inr ⟨(zk, zv), List.mem_cons_self _ _, rfl⟩
      · exact Or.inr ⟨y, List.mem_cons_of_mem _ hy2, rfl⟩
    · by_cases hzlt : r.group_id < zk
      · simp only [removeInsert, beq_eq_false_iff_ne.mpr hz, if_false,
          if_pos hzlt] at hy
        rcases List.mem_cons.mp hy with rfl | hy2
        · exact Or.inl rfl
        · exact Or.inr ⟨y, hy2, rfl⟩
      · simp only [removeInsert, beq_eq_false_iff_ne.mpr hz, if_false,
          if_neg hzlt] at hy
        rcases List.mem_cons.mp hy with rfl | hy2
        · exact Or.inr ⟨(zk, zv), List.mem_cons_self _ _, rfl⟩
        · rcases ih hy2 with h1 | ⟨kv, hkv, heq⟩
          · exact Or.inl h1
          · exact Or.inr ⟨kv, List.mem_cons_of_mem _ hkv, heq⟩

/-- Insertion by `removeInsert` preserves the ascending key order. -/
theorem removeInsert_sorted {t : List (Int × List RemoveMatchRule)}
    (hs : keysSorted t) (r : RemoveMatchRule) : keysSorted (removeInsert t r) := by
  induction t with
  | nil => trivial
  | cons kv rest ih =>
    obtain ⟨k, rs⟩ := kv
    by_cases hk : r.group_id = k
    · simp only [removeInsert, beq_iff_eq.mpr hk, if_true]
      cases rest with
      | nil => trivial
      | cons y rest2 => exact ⟨hs.1, hs.2⟩
    · by_cases hlt : r.group_id < k
      · simp only [removeInsert, beq_eq_false_iff_ne.mpr hk, if_false, if_pos hlt]
        exact ⟨hlt, hs⟩
      · simp only [removeInsert, beq_eq_false_iff_ne.mpr hk, if_false, if_neg hlt]
        have htail := ih (keysSorted_tail hs)
        cases hrest : removeInsert rest r with
        | nil => trivial
        | cons y rest2 =>
          rw [hrest] at htail
          refine ⟨?_, htail⟩
          have hy : y ∈ removeInsert rest r := by
            rw [hrest]; exact List.mem_cons_self _ _
          rcases removeInsert_keys hy with h1 | ⟨kv, hkv, heq⟩
          · rw [h1]; exact lt_of_le_of_ne (not_lt.mp hlt) (Ne.symm hk)
          · rw [heq]; exact keysSorted_head_lt hs kv hkv

/-- Lookup after `removeInsert` in a sorted tree: the rule is appended
to its own group's list (created when absent); other groups are
untouched. -/
theorem lookup_removeInsert {t : List (Int × List RemoveMatchRule)}
    (hs : keysSorted t) (r : RemoveMatchRule) (g : Int) :
    lookupGroup g (removeInsert t r) =
      if r.group_id = g then some (((lookupGroup g t).getD []) ++ [r])
      else lookupGroup g t := by
  induction t with
  | nil =>
    by_cases hg : r.group_id = g
    · simp [removeInsert, lookupGroup, hg, if_pos hg]
    · simp [removeInsert, lookupGroup, hg, beq_eq_false_iff_ne.mpr (fun h => hg h.symm)]
  | cons kv rest ih =>
    obtain ⟨k, rs⟩ := kv
    by_cases hk : r.group_id = k
    · simp only [removeInsert, beq_iff_eq.mpr hk, if_true]
      by_cases hg : r.group_id = g
      · have hgk : g = k := hg ▸ hk
        subst hgk
        simp [lookupGroup, if_pos hg]
      · have hgk : ¬(g = k) := fun h2 => hg (hk.symm ▸ h2.symm ▸ rfl)
        simp [lookupGroup, beq_eq_false_iff_ne.mpr hgk, if_neg hg]
    · by_cases hlt : r.group_id < k
      · simp only [removeInsert, beq_eq_false_iff_ne.mpr hk, if_false, if_pos hlt]
        by_cases hg : r.group_id = g
        · subst hg
          have hrest : lookupGroup r.group_id rest = none :=
            lookupGroup_eq_none (fun kv hkv =>
              ne_of_lt (lt_trans hlt (keysSorted_head_lt hs kv hkv)))
          simp [lookupGroup, beq_eq_false_iff_ne.mpr hk, hrest]
        · have : ¬(g = r.group_id) := fun h2 => hg h2.symm
          simp [lookupGroup, beq_eq_false_iff_ne.mpr this, if_neg hg]
      · simp only [removeInsert, beq_eq_false_iff_ne.mpr hk, if_false, if_neg hlt]
        by_cases hgk : g = k
        · subst hgk
          have hg : ¬(r.group_id = g) := hk
          simp [lookupGroup, if_pos rfl, if_neg hg]
        · simp only [lookupGroup, beq_eq_false_iff_ne.mpr hgk, if_false]
          exact ih (keysSorted_tail hs)

/-- Folding rules into a sorted tree keeps it sorted. -/
theorem foldl_removeInsert_sorted (rs : List RemoveMatchRule)
    {t : List (Int × List RemoveMatchRule)} (hs : keysSorted t) :
    keysSorted (rs.foldl removeInsert t) := by
  induction rs generalizing t with
  | nil => exact hs
  | cons r rest ih => exact ih (removeInsert_sorted hs r)

/-- Lookup in the built remove tree: exactly the rules carrying that
group id, in order; `none` when there are none. -/
theorem lookup_fromRules (rs : List RemoveMatchRule) (g : Int) :
    lookupGroup g (RemoveTree.fromRules rs).rules =
      (if (rs.filter (fun r => r.group_id == g)) = [] then none
       else some (rs.filter (fun r => r.group_id == g))) := by
  suffices h : ∀ (t : List (Int × List RemoveMatchRule)), keysSorted t →
      lookupGroup g (rs.foldl removeInsert t) =
        ((rs.filter (fun r => r.group_id == g)).foldl
          (fun o r => some (o.getD [] ++ [r])) (lookupGroup g t)) by
    have h2 := h [] trivial
    simp only [RemoveTree.fromRules]
    rw [h2]
    have : lookupGroup g ([] : List (Int × List RemoveMatchRule)) = none := rfl
    rw [this]
    generalize rs.filter (fun r => r.group_id == g) = fl
    induction fl with
    | nil => simp
    | cons x xs ihf =>
      simp only [List.foldl_cons, Option.getD_none, List.nil_append,
        if_neg (List.cons_ne_nil x xs)]
      -- fold starting from some [x]
      clear ihf
      suffices hgen : ∀ (acc : List RemoveMatchRule),
          xs.foldl (fun o r => some (o.getD [] ++ [r])) (some acc) = some (acc ++ xs) by
        rw [hgen [x]]; simp
      intro acc
      induction xs generalizing acc with
      | nil => simp
      | cons y ys ihy =>
        simp only [List.foldl_cons, Option.getD_some]
        rw [ihy (acc ++ [y])]
        simp
  intro t
  induction rs generalizing t with
  | nil => intro hst; simp
  | cons r rest ih =>
    intro hst
    simp only [List.foldl_cons]
    rw [ih _ (removeInsert_sorted hst r)]
    by_cases hg : r.group_id = g
    · simp only [List.filter_cons, beq_iff_eq.mpr hg, if_true, List.foldl_cons]
      rw [lookup_removeInsert hst r g, if_pos hg]
    · simp only [List.filter_cons]
      rw [lookup_removeInsert hst r g, if_neg hg]
      simp [beq_eq_false_iff_ne.mpr hg]

/-- C6: a remove rule parsed from a single field (just a group id) is
an unrestricted window: for every event with a derivable start date the
rule matches regardless of the date, and therefore every such event of
that group is excluded by any remove tree whose rule list contains the
rule. -/
theorem C6_one_field_unrestricted (s f0 : Str) (r : RemoveMatchRule)
    (hsplit : splitn 3 ',' s = [f0])
    (hok : RemoveMatchRule.fromStr s = Except.ok r) :
    ∀ (e : Event) (d : Date), Event.startDate e = some d →
      (r.is_match e = some true ∧
       ∀ (rules : List RemoveMatchRule), r ∈ rules →
         (RemoveTree.fromRules rules).is_match r.group_id e = some (some true)) := by
  simp only [RemoveMatchRule.fromStr, hsplit] at hok
  cases hgi : parseIsize ([f0].headD []) with
  | none => rw [hgi] at hok; exact absurd hok (by simp)
  | some gid =>
    rw [hgi] at hok
    obtain rfl := (Except.ok.inj hok).symm
    intro e d hd
    have hmatch : RemoveMatchRule.matchesDate ⟨gid, false, none, none⟩ d = true := rfl
    refine ⟨by simp [RemoveMatchRule.is_match, hd, hmatch], ?_⟩
    intro rules hr
    have hfl : (⟨gid, false, none, none⟩ : RemoveMatchRule) ∈
        rules.filter (fun r2 => r2.group_id == gid) := by
      exact List.mem_filter.mpr ⟨hr, by simp⟩
    have hne : rules.filter (fun r2 => r2.group_id == gid) ≠ [] :=
      List.ne_nil_of_mem hfl
    simp only [RemoveTree.is_match]
    rw [lookup_fromRules rules gid, if_neg hne]
    cases hcase : rules.filter (fun r2 => r2.group_id == gid) with
    | nil => exact absurd hcase hne
    | cons x xs =>
      rw [hd]
      simp only [Option.some_inj]
      rw [← hcase]
      refine (List.any_eq_true.mpr ?_)
      exact ⟨⟨gid, false, none, none⟩, hfl, hmatch⟩

/-- Concrete one-field remove rule string. -/
def c6Str : Str := "2".toList

/-- The rule parsed from `c6Str`. -/
def c6Rule : RemoveMatchRule := ⟨2, false, none, none⟩

/-- An event with a derivable start date. -/
def c6Event : Event :=
  ⟨[⟨dtstartKey, some ("20240301T120000Z".toList)⟩]⟩

/-- Witness for C6 at the concrete rule string `2`. -/
theorem C6_one_field_unrestricted_witness :
    splitn 3 ',' c6Str = [c6Str] ∧
    RemoveMatchRule.fromStr c6Str = Except.ok c6Rule ∧
    Event.startDate c6Event = some ⟨2024, 3, 1⟩ ∧
    (c6Rule.is_match c6Event = some true ∧
     ∀ (rules : List RemoveMatchRule), c6Rule ∈ rules →
       (RemoveTree.fromRules rules).is_match c6Rule.group_id c6Event = some (some true)) :=
  ⟨rfl, rfl, rfl,
    C6_one_field_unrestricted c6Str c6Str c6Rule rfl rfl c6Event ⟨2024, 3, 1⟩ rfl⟩

/-! ## C8: a group with zero property rules matches every event -/

/-- C8: a match group containing zero property rules matches every
event (vacuous truth over the empty rule set), so a tree containing an
empty group classifies every event into some group. -/
theorem C8_empty_group_matches (t : MatchTree) (gid : Int) (e : Event)
    (h : (gid, (⟨[]⟩ : MatchGroup)) ∈ t.groups) :
    MatchGroup.is_match ⟨[]⟩ e = true ∧ ∃ g, t.is_match e = some g := by
  refine ⟨rfl, ?_⟩
  have hsome : (t.groups.find? (fun g => g.2.is_match e)).isSome := by
    rw [List.find?_isSome]
    exact ⟨(gid, ⟨[]⟩), h, rfl⟩
  obtain ⟨res, hres⟩ := Option.isSome_iff_exists.mp hsome
  exact ⟨res.1, by simp [MatchTree.is_match, hres]⟩

/-- Witness for C8 at a concrete tree holding one empty group. -/
theorem C8_empty_group_matches_witness :
    ((5 : Int), (⟨[]⟩ : MatchGroup)) ∈ (⟨[(5, ⟨[]⟩)]⟩ : MatchTree).groups ∧
    (MatchGroup.is_match ⟨[]⟩ ⟨[]⟩ = true ∧
     ∃ g, (⟨[(5, ⟨[]⟩)]⟩ : MatchTree).is_match ⟨[]⟩ = some g) :=
  ⟨List.mem_singleton.mpr rfl,
    C8_empty_group_matches ⟨[(5, ⟨[]⟩)]⟩ 5 ⟨[]⟩ (List.mem_singleton.mpr rfl)⟩

/-! ## C10: only the first property of a given name is consulted -/

/-- The first-occurrence search underlying both `Event::prop` and the
classifier's per-rule lookup. -/
theorem findProp_first (name : Str) (pre : List EventProperty)
    (p : EventProperty) (rest : List EventProperty)
    (hpre : ∀ x ∈ pre, x.name ≠ name) (hp : p.name = name) :
    (pre ++ p :: rest).find? (fun ep => ep.name == name) = some p := by
  induction pre with
  | nil =>
    simp only [List.nil_append]
    exact List.find?_cons_of_pos _ (beq_iff_eq.mpr hp)
  | cons a as ih =>
    have ha : a.name ≠ name := hpre a (List.mem_cons_self _ _)
    simp only [List.cons_append]
    rw [List.find?_cons_of_neg _ (by simp [ha])]
    exact ih (fun x hx => hpre x (List.mem_cons_of_mem _ hx))

/-- C10: whenever an event contains several properties with the same
name, every lookup the core performs — the classifier's per-rule
search (`propPairMatch`) and the accessor's generic lookup
(`Event::prop`) — consults only the first property with that name: the
outcome is determined by that first property's value, and replacing
everything after the first occurrence (in particular any later
duplicate) changes neither result; hence a match-rule pair fails when
the first property of that name has no value or a non-matching value
even when a later duplicate would match. -/
theorem C10_first_property_only (name : Str) (pre : List EventProperty)
    (p : EventProperty) (rest rest2 : List EventProperty)
    (hpre : ∀ x ∈ pre, x.name ≠ name) (hp : p.name = name) :
    (∀ pat : Regex, propPairMatch ⟨pre ++ p :: rest⟩ (name, pat) =
        (match p.value with | some v => pat v | none => false)) ∧
    Event.prop ⟨pre ++ p :: rest⟩ name = p.value ∧
    (∀ pat : Regex, propPairMatch ⟨pre ++ p :: rest⟩ (name, pat) =
        propPairMatch ⟨pre ++ p :: rest2⟩ (name, pat)) ∧
    Event.prop ⟨pre ++ p :: rest⟩ name = Event.prop ⟨pre ++ p :: rest2⟩ name := by
  have h1 := findProp_first name pre p rest hpre hp
  have h2 := findProp_first name pre p rest2 hpre hp
  refine ⟨?_, ?_, ?_, ?_⟩
  · intro pat
    simp only [propPairMatch, h1]
  · simp only [Event.prop, h1, Option.some_bind]
  · intro pat
    simp only [propPairMatch, h1, h2]
  · simp only [Event.prop, h1, h2]

/-- Name used by the C10 witness. -/
def c10Name : Str := "SUMMARY".toList

/-- A first, valueless `SUMMARY` property. -/
def c10P : EventProperty := ⟨c10Name, none⟩

/-- A later duplicate `SUMMARY` property whose value would match. -/
def c10Q : EventProperty := ⟨c10Name, some ("Standup".toList)⟩

/-- Witness for C10: with a valueless first `SUMMARY` and a matching
later duplicate, the pair check is still false and the accessor still
returns the first (absent) value. -/
theorem C10_first_property_only_witness :
    (∀ x ∈ ([] : List EventProperty), x.name ≠ c10Name) ∧ c10P.name = c10Name ∧
    ((∀ pat : Regex, propPairMatch ⟨[] ++ c10P :: [c10Q]⟩ (c10Name, pat) =
        (match c10P.value with | some v => pat v | none => false)) ∧
     Event.prop ⟨[] ++ c10P :: [c10Q]⟩ c10Name = c10P.value ∧
     (∀ pat : Regex, propPairMatch ⟨[] ++ c10P :: [c10Q]⟩ (c10Name, pat) =
        propPairMatch ⟨[] ++ c10P :: []⟩ (c10Name, pat)) ∧
     Event.prop ⟨[] ++ c10P :: [c10Q]⟩ c10Name = Event.prop ⟨[] ++ c10P :: []⟩ c10Name) :=
  ⟨fun x hx => absurd hx (List.not_mem_nil x), rfl,
    C10_first_property_only c10Name [] c10P [c10Q] []
      (fun x hx => absurd hx (List.not_mem_nil x)) rfl⟩

/-! ## C9: a match rule without `=` fails to parse and aborts startup -/

/-- Without the separator the break search fails. -/
theorem breakAtFirst_eq_none {sep : Char} {l : Str} (h : sep ∉ l) :
    breakAtFirst sep l = none := by
  induction l with
  | nil => rfl
  | cons c rest ih =>
    have hc : (c == sep) = false :=
      beq_eq_false_iff_ne.mpr (fun h2 => h (h2 ▸ List.mem_cons_self _ _))
    simp [breakAtFirst, hc, ih (fun h2 => h (List.mem_cons_of_mem _ h2))]

/-- A string with no occurrence of the separator splits into itself. -/
theorem splitn_two_no_sep {sep : Char} {l : Str} (h : sep ∉ l) :
    splitn 2 sep l = [l] := by
  simp only [splitn, breakAtFirst_eq_none h]

/-- When some include string fails to parse, parsing the include list
fails. -/
theorem parseIncludes_error (compile : Str → Option Regex) (l : List Str)
    (s : Str) (hs : s ∈ l) (e0 : MatchRuleParseError)
    (herr : MatchRule.fromStr compile s = Except.error e0) :
    ∃ e, parseIncludes compile l = Except.error e := by
  induction l with
  | nil => simp at hs
  | cons hd tl ih =>
    rcases List.mem_cons.mp hs with rfl | hs2
    · exact ⟨e0, by simp [parseIncludes, herr]⟩
    · cases hhd : MatchRule.fromStr compile hd with
      | error e1 => exact ⟨e1, by simp [parseIncludes, hhd]⟩
      | ok r =>
        obtain ⟨e, he⟩ := ih hs2
        exact ⟨e, by simp [parseIncludes, hhd, he]⟩

/-- C9: a match-rule string whose part after the optional group-id
part contains no `=` separator fails to parse with the
missing-separator error kind, and such a parse failure aborts the run
at startup, before any event is read: the run fails with one fixed
error no matter what the event input is. -/
theorem C9_missing_separator (compile : Str → Option Regex) (s : Str)
    (h : ('=') ∉ (splitn 2 ',' s).getLastD s) :
    MatchRule.fromStr compile s = Except.error MatchRuleParseError.MissingEqualSign ∧
    ∀ (includes removes : List Str), s ∈ includes →
      ∃ err, ∀ (cals : List (List Event)),
        runMain compile includes removes cals = Except.error err := by
  have hparse : MatchRule.fromStr compile s =
      Except.error MatchRuleParseError.MissingEqualSign := by
    simp only [MatchRule.fromStr, splitn_two_no_sep h]
  refine ⟨hparse, ?_⟩
  intro includes removes hmem
  obtain ⟨e, he⟩ := parseIncludes_error compile includes s hmem _ hparse
  exact ⟨RunError.includeParse e, fun cals => by simp [runMain, he]⟩

/-- Concrete malformed match rule string. -/
def c9Str : Str := "SUMMARY".toList

/-- A regex compiler for witnesses: every pattern compiles to the
matcher comparing for equality with the pattern. -/
def literalCompile (p : Str) : Option Regex := some (fun v => v == p)

/-- Witness for C9 at the concrete string `SUMMARY`. -/
theorem C9_missing_separator_witness :
    (('=') ∉ (splitn 2 ',' c9Str).getLastD c9Str) ∧
    (MatchRule.fromStr literalCompile c9Str =
        Except.error MatchRuleParseError.MissingEqualSign ∧
     ∀ (includes removes : List Str), c9Str ∈ includes →
       ∃ err, ∀ (cals : List (List Event)),
         runMain literalCompile includes removes cals = Except.error err) :=
  ⟨by decide, C9_missing_separator literalCompile c9Str (by decide)⟩

/-! ## C1: the pipeline keeps exactly the classified, non-excluded
events -/

/-- C1: when the retain predicate of `main_io` evaluates without
panicking, it keeps an event exactly when the classifier assigns it
some group `g` and neither the remove rules stored for `g` nor the
remove rules stored for the wildcard group `-1` match the event: an
event assigned no group is dropped, and a group with no remove rules
(inner lookup result `none`) counts as not excluded. -/
theorem C1_pipeline_keep_iff (mt : MatchTree) (rt : RemoveTree) (e : Event)
    (b : Bool) (h : keepEvent mt rt e = some b) :
    b = true ↔ ∃ g, mt.is_match e = some g ∧
      (rt.is_match g e = some none ∨ rt.is_match g e = some (some false)) ∧
      (rt.is_match (-1) e = some none ∨ rt.is_match (-1) e = some (some false)) := by
  cases hcl : mt.is_match e with
  | none =>
    simp only [keepEvent, hcl] at h
    obtain rfl := (Option.some_injective _ h).symm
    constructor
    · intro hft; exact absurd hft (by simp)
    · rintro ⟨g, hg, _⟩
      exact absurd hg (by simp)
  | some id =>
    cases hr1 : rt.is_match id e with
    | none => simp [keepEvent, hcl, hr1] at h
    | some r1 =>
      by_cases ht1 : r1 = some true
      · subst ht1
        simp [keepEvent, hcl, hr1] at h
        obtain rfl := h.symm
        constructor
        · intro hft; exact absurd hft (by simp)
        · rintro ⟨g, hg, hng, _⟩
          obtain rfl : id = g := Option.some_injective _ hg
          rcases hng with hng | hng <;>
            · rw [hr1] at hng
              obtain h2 := Option.some_injective _ hng
              exact absurd h2 (by simp)
      · have hbeq : (r1 == some true) = false := by
          simpa using ht1
        cases hr2 : rt.is_match (-1) e with
        | none => simp [keepEvent, hcl, hr1, hbeq, hr2] at h
        | some r2 =>
          simp [keepEvent, hcl, hr1, hbeq, hr2] at h
          obtain rfl := h.symm
          constructor
          · intro ht2
            have ht2b : r2 ≠ some true := by
              intro hcontra; rw [hcontra] at ht2; simp at ht2
            refine ⟨id, rfl, ?_, ?_⟩
            · cases r1 with
              | none => exact Or.inl hr1
              | some b1 =>
                cases b1 with
                | true => exact absurd rfl ht1
                | false => exact Or.inr hr1
            · cases r2 with
              | none => exact Or.inl rfl
              | some b2 =>
                cases b2 with
                | true => exact absurd rfl ht2b
                | false => exact Or.inr rfl
          · rintro ⟨g, hg, _, hnw⟩
            have hne : r2 ≠ some true := by
              rcases hnw with hnw | hnw <;>
                · obtain h2 := Option.some_injective _ hnw
                  rw [h2]
                  simp
            simpa using hne

/-- The C1 witness event. -/
def c1Event : Event :=
  ⟨[⟨c10Name, some ("Standup".toList)⟩,
    ⟨dtstartKey, some ("20240301T120000Z".toList)⟩]⟩

/-- The C1 witness tree: one rule matching `SUMMARY` equal to
`Standup` in group 0. -/
def c1Tree : MatchTree :=
  MatchTree.fromRules [⟨0, c10Name, fun v => v == ("Standup".toList)⟩]

/-- Witness for C1: with no remove rules the matching event is kept. -/
theorem C1_pipeline_keep_iff_witness :
    keepEvent c1Tree (RemoveTree.fromRules []) c1Event = some true ∧
    (true = true ↔ ∃ g, c1Tree.is_match c1Event = some g ∧
      ((RemoveTree.fromRules []).is_match g c1Event = some none ∨
       (RemoveTree.fromRules []).is_match g c1Event = some (some false)) ∧
      ((RemoveTree.fromRules []).is_match (-1) c1Event = some none ∨
       (RemoveTree.fromRules []).is_match (-1) c1Event = some (some false))) :=
  ⟨rfl, C1_pipeline_keep_iff c1Tree (RemoveTree.fromRules []) c1Event true rfl⟩

/-! ## C2: soundness of the classifier -/

/-- A true pair check exhibits a property of the event with the
rule's name whose value matches the pattern. -/
theorem propPairMatch_sound {e : Event} {pr : Str × Regex}
    (h : propPairMatch e pr = true) :
    ∃ p ∈ e.properties, p.name = pr.1 ∧ ∃ v, p.value = some v ∧ pr.2 v = true := by
  unfold propPairMatch at h
  cases hf : e.properties.find? (fun ep => ep.name == pr.1) with
  | none => rw [hf] at h; exact absurd h (by simp)
  | some ep =>
    rw [hf] at h
    have hname := List.find?_some hf
    have h2 : (match ep.value with
        | some ev => pr.2 ev
        | none => false) = true := h
    cases hv : ep.value with
    | none =>
      rw [hv] at h2
      exact absurd h2 (by simp)
    | some v =>
      rw [hv] at h2
      exact ⟨ep, List.mem_of_find?_eq_some hf,
        beq_iff_eq.mp hname, v, hv, h2⟩

/-- C2: `MatchTree::is_match` returns a group id `g` only if every
(property name, pattern) pair of group `g`'s rule set is satisfied by
some property of the event with that exact name whose value matches
the pattern, and it returns no group when no group's full rule set is
satisfied. -/
theorem C2_classifier_sound (t : MatchTree) (e : Event) :
    (∀ g, t.is_match e = some g →
      ∃ mg, (g, mg) ∈ t.groups ∧
        ∀ pr ∈ mg.properties, ∃ p ∈ e.properties,
          p.name = pr.1 ∧ ∃ v, p.value = some v ∧ pr.2 v = true) ∧
    ((∀ gp ∈ t.groups, ¬ (∀ pr ∈ gp.2.properties, ∃ p ∈ e.properties,
        p.name = pr.1 ∧ ∃ v, p.value = some v ∧ pr.2 v = true)) →
      t.is_match e = none) := by
  have hsound : ∀ (x : Int × MatchGroup),
      t.groups.find? (fun g => g.2.is_match e) = some x →
      x ∈ t.groups ∧ ∀ pr ∈ x.2.properties, ∃ p ∈ e.properties,
        p.name = pr.1 ∧ ∃ v, p.value = some v ∧ pr.2 v = true := by
    intro x hx
    have hmem := List.mem_of_find?_eq_some hx
    have hpred := List.find?_some hx
    refine ⟨hmem, fun pr hpr => ?_⟩
    have hall := List.all_eq_true.mp hpred pr hpr
    exact propPairMatch_sound hall
  constructor
  · intro g hg
    simp only [MatchTree.is_match] at hg
    cases hf : t.groups.find? (fun g2 => g2.2.is_match e) with
    | none => rw [hf] at hg; exact absurd hg (by simp)
    | some x =>
      rw [hf] at hg
      obtain ⟨hmem, hsat⟩ := hsound x hf
      obtain rfl : x.1 = g := Option.some_injective _ hg
      exact ⟨x.2, by simpa using hmem, hsat⟩
  · intro hnone
    simp only [MatchTree.is_match]
    cases hf : t.groups.find? (fun g2 => g2.2.is_match e) with
    | none => rfl
    | some x =>
      obtain ⟨hmem, hsat⟩ := hsound x hf
      exact absurd hsat (hnone x hmem)

/-- The C2 witness event. -/
def c2Event : Event := ⟨[⟨c10Name, some ("Standup".toList)⟩]⟩

/-- The C2 witness tree: one rule on `SUMMARY` in group 0. -/
def c2Tree : MatchTree :=
  MatchTree.fromRules [⟨0, c10Name, fun v => v == ("Standup".toList)⟩]

/-- Witness for C2: the concrete classification is sound. -/
theorem C2_classifier_sound_witness :
    c2Tree.is_match c2Event = some 0 ∧
    ∃ mg, ((0 : Int), mg) ∈ c2Tree.groups ∧
      ∀ pr ∈ mg.properties, ∃ p ∈ c2Event.properties,
        p.name = pr.1 ∧ ∃ v, p.value = some v ∧ pr.2 v = true :=
  ⟨rfl, (C2_classifier_sound c2Tree c2Event).1 0 rfl⟩

/-! ## C7: match-tree construction is last-write-wins per
(group id, property name) -/

/-- Every key of `treeInsertRule t r` is `r`'s key or a key of `t`. -/
theorem treeInsertRule_keys {t : List (Int × MatchGroup)} {r : MatchRule}
    {y : Int × MatchGroup} (hy : y ∈ treeInsertRule t r) :
    y.1 = r.group_id ∨ ∃ kv ∈ t, y.1 = kv.1 := by
  induction t with
  | nil =>
    simp only [treeInsertRule, List.mem_singleton] at hy
    exact Or.inl (by rw [hy])
  | cons z rest ih =>
    obtain ⟨zk, zv⟩ := z
    by_cases hz : r.group_id = zk
    · simp only [treeInsertRule, beq_iff_eq.mpr hz, if_true] at hy
      rcases List.mem_cons.mp hy with rfl | hy2
      · exact Or.inr ⟨(zk, zv), List.mem_cons_self _ _, rfl⟩
      · exact Or.inr ⟨y, List.mem_cons_of_mem _ hy2, rfl⟩
    · by_cases hzlt : r.group_id < zk
      · simp only [treeInsertRule, beq_eq_false_iff_ne.mpr hz, if_false,
          if_pos hzlt] at hy
        rcases List.mem_cons.mp hy with rfl | hy2
        · exact Or.inl rfl
        · exact Or.inr ⟨y, hy2, rfl⟩
      · simp only [treeInsertRule, beq_eq_false_iff_ne.mpr hz, if_false,
          if_neg hzlt] at hy
        rcases List.mem_cons.mp hy with rfl | hy2
        · exact Or.inr ⟨(zk, zv), List.mem_cons_self _ _, rfl⟩
        · rcases ih hy2 with h1 | ⟨kv, hkv, heq⟩
          · exact Or.inl h1
          · exact Or.inr ⟨kv, List.mem_cons_of_mem _ hkv, heq⟩

/-- Insertion by `treeInsertRule` preserves the ascending key order. -/
theorem treeInsertRule_sorted {t : List (Int × MatchGroup)}
    (hs : keysSorted t) (r : MatchRule) : keysSorted (treeInsertRule t r) := by
  induction t with
  | nil => trivial
  | cons kv rest ih =>
    obtain ⟨k, g⟩ := kv
    by_cases hk : r.group_id = k
    · simp only [treeInsertRule, beq_iff_eq.mpr hk, if_true]
      cases rest with
      | nil => trivial
      | cons y rest2 => exact ⟨hs.1, hs.2⟩
    · by_cases hlt : r.group_id < k
      · simp only [treeInsertRule, beq_eq_false_iff_ne.mpr hk, if_false, if_pos hlt]
        exact ⟨hlt, hs⟩
      · simp only [treeInsertRule, beq_eq_false_iff_ne.mpr hk, if_false, if_neg hlt]
        have htail := ih (keysSorted_tail hs)
        cases hrest : treeInsertRule rest r with
        | nil => trivial
        | cons y rest2 =>
          rw [hrest] at htail
          refine ⟨?_, htail⟩
          have hy : y ∈ treeInsertRule rest r := by
            rw [hrest]; exact List.mem_cons_self _ _
          rcases treeInsertRule_keys hy with h1 | ⟨kv, hkv, heq⟩
          · rw [h1]; exact lt_of_le_of_ne (not_lt.mp hlt) (Ne.symm hk)
          · rw [heq]; exact keysSorted_head_lt hs kv hkv

/-- Lookup after `treeInsertRule` in a sorted tree: the rule lands in
its own group (created when absent); other groups are untouched. -/
theorem lookup_treeInsertRule {t : List (Int × MatchGroup)}
    (hs : keysSorted t) (r : MatchRule) (g : Int) :
    lookupGroup g (treeInsertRule t r) =
      if r.group_id = g then
        some (((lookupGroup g t).getD ⟨[]⟩).add_rule r)
      else lookupGroup g t := by
  induction t with
  | nil =>
    by_cases hg : r.group_id = g
    · simp [treeInsertRule, lookupGroup, hg, if_pos hg]
    · simp [treeInsertRule, lookupGroup, hg,
        beq_eq_false_iff_ne.mpr (fun h => hg h.symm)]
  | cons kv rest ih =>
    obtain ⟨k, gp⟩ := kv
    by_cases hk : r.group_id = k
    · simp only [treeInsertRule, beq_iff_eq.mpr hk, if_true]
      by_cases hg : r.group_id = g
      · have hgk : g = k := hg ▸ hk
        subst hgk
        simp [lookupGroup, if_pos hg]
      · have hgk : ¬(g = k) := fun h2 => hg (hk.symm ▸ h2.symm ▸ rfl)
        simp [lookupGroup, beq_eq_false_iff_ne.mpr hgk, if_neg hg]
    · by_cases hlt : r.group_id < k
      · simp only [treeInsertRule, beq_eq_false_iff_ne.mpr hk, if_false, if_pos hlt]
        by_cases hg : r.group_id = g
        · subst hg
          have hrest : lookupGroup r.group_id rest = none :=
            lookupGroup_eq_none (fun kv hkv =>
              ne_of_lt (lt_trans hlt (keysSorted_head_lt hs kv hkv)))
          simp [lookupGroup, beq_eq_false_iff_ne.mpr hk, hrest]
        · have hne : ¬(g = r.group_id) := fun h2 => hg h2.symm
          simp [lookupGroup, beq_eq_false_iff_ne.mpr hne, if_neg hg]
      · simp only [treeInsertRule, beq_eq_false_iff_ne.mpr hk, if_false, if_neg hlt]
        by_cases hgk : g = k
        · subst hgk
          have hg : ¬(r.group_id = g) := hk
          simp [lookupGroup, if_pos rfl, if_neg hg]
        · simp only [lookupGroup, beq_eq_false_iff_ne.mpr hgk, if_false]
          exact ih (keysSorted_tail hs)

/-- The built match tree is sorted. -/
theorem fromRules_tree_sorted (rs : List MatchRule) :
    keysSorted (MatchTree.fromRules rs).groups := by
  suffices h : ∀ (t : List (Int × MatchGroup)), keysSorted t →
      keysSorted (rs.foldl treeInsertRule t) from h [] trivial
  induction rs with
  | nil => intro t hst; exact hst
  | cons r rest ih =>
    intro t hst
    exact ih _ (treeInsertRule_sorted hst r)

/-- Lookup in the built match tree: the fold of the rules carrying
that group id, in order; `none` when there are none. -/
theorem lookup_tree_fromRules (rs : List MatchRule) (g : Int) :
    lookupGroup g (MatchTree.fromRules rs).groups =
      (if (rs.filter (fun r => r.group_id == g)).isEmpty then none
       else some ((rs.filter (fun r => r.group_id == g)).foldl
         MatchGroup.add_rule ⟨[]⟩)) := by
  suffices h : ∀ (t : List (Int × MatchGroup)), keysSorted t →
      lookupGroup g (rs.foldl treeInsertRule t) =
        ((rs.filter (fun r => r.group_id == g)).foldl
          (fun o r => some ((o.getD ⟨[]⟩).add_rule r)) (lookupGroup g t)) by
    have h2 := h [] trivial
    simp only [MatchTree.fromRules]
    rw [h2]
    have h3 : lookupGroup g ([] : List (Int × MatchGroup)) = none := rfl
    rw [h3]
    generalize rs.filter (fun r => r.group_id == g) = fl
    induction fl with
    | nil => simp
    | cons x xs ihf =>
      simp only [List.foldl_cons, Option.getD_none, List.isEmpty_cons,
        Bool.false_eq_true, if_false]
      clear ihf
      suffices hgen : ∀ (acc : MatchGroup),
          xs.foldl (fun o r => some ((o.getD ⟨[]⟩).add_rule r)) (some acc) =
            some (xs.foldl MatchGroup.add_rule acc) by
        rw [hgen (MatchGroup.add_rule ⟨[]⟩ x)]
      intro acc
      induction xs generalizing acc with
      | nil => simp
      | cons y ys ihy =>
        simp only [List.foldl_cons, Option.getD_some]
        rw [ihy (acc.add_rule y)]
  intro t
  induction rs generalizing t with
  | nil => intro hst; simp
  | cons r rest ih =>
    intro hst
    simp only [List.foldl_cons]
    rw [ih _ (treeInsertRule_sorted hst r)]
    by_cases hg : r.group_id = g
    · simp only [List.filter_cons, beq_iff_eq.mpr hg, if_true, List.foldl_cons]
      rw [lookup_treeInsertRule hst r g, if_pos hg]
    · simp only [List.filter_cons]
      rw [lookup_treeInsertRule hst r g, if_neg hg]
      simp [beq_eq_false_iff_ne.mpr hg]

/-- Association-list lookup on a group's property map. -/
def lookupProp (k : Str) : List (Str × Regex) → Option Regex
  | [] => none
  | (k2, v) :: rest => if k == k2 then some v else lookupProp k rest

/-- Lookup after `insertProp`: the inserted binding wins on its key,
everything else is untouched. -/
theorem lookupProp_insertProp (l : List (Str × Regex)) (kv : Str × Regex)
    (k : Str) :
    lookupProp k (insertProp l kv) =
      if kv.1 = k then some kv.2 else lookupProp k l := by
  induction l with
  | nil =>
    by_cases hk : kv.1 = k
    · simp [insertProp, lookupProp, hk]
    · simp [insertProp, lookupProp, hk,
        beq_eq_false_iff_ne.mpr (fun h => hk h.symm)]
  | cons hd rest ih =>
    obtain ⟨k2, v2⟩ := hd
    by_cases h2 : k2 = kv.1
    · have h2s : kv.1 = k2 := h2.symm
      simp only [insertProp, beq_iff_eq.mpr h2, if_true]
      by_cases hk : k = k2
      · have heq : kv.1 = k := by rw [h2s, hk]
        simp [lookupProp, beq_iff_eq.mpr hk, heq]
      · have hne : kv.1 ≠ k := by rw [h2s]; exact fun hcc => hk hcc.symm
        simp [lookupProp, beq_eq_false_iff_ne.mpr hk, hne]
    · simp only [insertProp, beq_eq_false_iff_ne.mpr h2, if_false]
      simp only [lookupProp]
      by_cases hk : k = k2
      · have hne : kv.1 ≠ k := fun hcc => h2 (by rw [hcc, hk])
        simp [beq_iff_eq.mpr hk, hne]
      · simp only [beq_eq_false_iff_ne.mpr hk, if_false]
        exact ih

/-- Lookup in a group built by folding `add_rule`: the last rule with
that property name wins; names never written keep the start group's
binding. -/
theorem lookupProp_foldl_add_rule (rs : List MatchRule) (G : MatchGroup)
    (k : Str) :
    lookupProp k (rs.foldl MatchGroup.add_rule G).properties =
      (match rs.reverse.find? (fun r => r.property == k) with
       | some r2 => some r2.value
       | none => lookupProp k G.properties) := by
  induction rs generalizing G with
  | nil => simp
  | cons r rest ih =>
    simp only [List.foldl_cons, List.reverse_cons]
    rw [ih (G.add_rule r)]
    rw [List.find?_append]
    cases hfr : rest.reverse.find? (fun r2 => r2.property == k) with
    | some r2 => simp [Option.or]
    | none =>
      simp only [Option.none_or]
      have hadd : lookupProp k (MatchGroup.add_rule G r).properties =
          if r.property = k then some r.value else lookupProp k G.properties := by
        simp only [MatchGroup.add_rule]
        exact lookupProp_insertProp G.properties (r.property, r.value) k
      by_cases hp : r.property = k
      · have hfind : List.find? (fun r2 => r2.property == k) [r] = some r := by
          simp [List.find?, beq_iff_eq.mpr hp]
        rw [hfind]
        simp [hadd, hp]
      · have hfind : List.find? (fun r2 => r2.property == k) [r] = none := by
          simp [List.find?, beq_eq_false_iff_ne.mpr hp]
        rw [hfind]
        simp [hadd, hp]

/-- Distinct property names in a group's map. -/
def propKeysUnique (l : List (Str × Regex)) : Prop :=
  l.Pairwise (fun a b => a.1 ≠ b.1)

/-- Every key of `insertProp l kv` is `kv`'s key or a key of `l`. -/
theorem insertProp_keys {l : List (Str × Regex)} {kv : Str × Regex}
    {y : Str × Regex} (hy : y ∈ insertProp l kv) :
    y.1 = kv.1 ∨ ∃ z ∈ l, y.1 = z.1 := by
  induction l with
  | nil =>
    simp only [insertProp, List.mem_singleton] at hy
    exact Or.inl (by rw [hy])
  | cons hd rest ih =>
    obtain ⟨k2, v2⟩ := hd
    by_cases h2 : k2 = kv.1
    · simp only [insertProp, beq_iff_eq.mpr h2, if_true] at hy
      rcases List.mem_cons.mp hy with rfl | hy2
      · exact Or.inr ⟨(k2, v2), List.mem_cons_self _ _, rfl⟩
      · exact Or.inr ⟨y, List.mem_cons_of_mem _ hy2, rfl⟩
    · simp only [insertProp, beq_eq_false_iff_ne.mpr h2, if_false] at hy
      rcases List.mem_cons.mp hy with rfl | hy2
      · exact Or.inr ⟨(k2, v2), List.mem_cons_self _ _, rfl⟩
      · rcases ih hy2 with h1 | ⟨z, hz, heq⟩
        · exact Or.inl h1
        · exact Or.inr ⟨z, List.mem_cons_of_mem _ hz, heq⟩

/-- Insertion by `insertProp` preserves key uniqueness. -/
theorem insertProp_unique {l : List (Str × Regex)} (hu : propKeysUnique l)
    (kv : Str × Regex) : propKeysUnique (insertProp l kv) := by
  induction l with
  | nil => simp [insertProp, propKeysUnique]
  | cons hd rest ih =>
    obtain ⟨k2, v2⟩ := hd
    obtain ⟨hhd, hrest⟩ := List.pairwise_cons.mp hu
    by_cases h2 : k2 = kv.1
    · simp only [insertProp, beq_iff_eq.mpr h2, if_true]
      exact List.pairwise_cons.mpr ⟨hhd, hrest⟩
    · simp only [insertProp, beq_eq_false_iff_ne.mpr h2, if_false]
      refine List.pairwise_cons.mpr ⟨?_, ih hrest⟩
      intro b hb
      rcases insertProp_keys hb with h1 | ⟨z, hz, heq⟩
      · rw [h1]; exact h2
      · rw [heq]; exact hhd z hz

/-- Groups built by folding `add_rule` have unique property names. -/
theorem foldl_add_rule_unique (rs : List MatchRule) (G : MatchGroup)
    (hu : propKeysUnique G.properties) :
    propKeysUnique ((rs.foldl MatchGroup.add_rule G).properties) := by
  induction rs generalizing G with
  | nil => exact hu
  | cons r rest ih =>
    simp only [List.foldl_cons]
    exact ih (G.add_rule r) (insertProp_unique hu (r.property, r.value))

/-- In a unique-keyed map, membership is exactly a successful lookup. -/
theorem mem_iff_lookupProp {l : List (Str × Regex)} (hu : propKeysUnique l)
    (kv : Str × Regex) : kv ∈ l ↔ lookupProp kv.1 l = some kv.2 := by
  induction l with
  | nil => simp [lookupProp]
  | cons hd rest ih =>
    obtain ⟨k2, v2⟩ := hd
    obtain ⟨hhd, hrest⟩ := List.pairwise_cons.mp hu
    constructor
    · intro hmem
      rcases List.mem_cons.mp hmem with rfl | hmem2
      · simp [lookupProp]
      · have hk : kv.1 ≠ k2 := fun h => (hhd kv hmem2) h.symm
        simp only [lookupProp, beq_eq_false_iff_ne.mpr hk, if_false]
        exact (ih hrest).mp hmem2
    · intro hlook
      simp only [lookupProp] at hlook
      by_cases hk : kv.1 = k2
      · rw [if_pos (beq_iff_eq.mpr hk)] at hlook
        obtain h2 := Option.some_injective _ hlook
        have : kv = (k2, v2) := Prod.ext hk h2.symm
        rw [this]
        exact List.mem_cons_self _ _
      · rw [if_neg (by simp [hk])] at hlook
        exact List.mem_cons_of_mem _ ((ih hrest).mpr hlook)

/-- Two unique-keyed groups with identical lookups match the same
events. -/
theorem is_match_congr {g1 g2 : MatchGroup}
    (h1 : propKeysUnique g1.properties) (h2 : propKeysUnique g2.properties)
    (h : ∀ k, lookupProp k g1.properties = lookupProp k g2.properties)
    (e : Event) : g1.is_match e = g2.is_match e := by
  have hmem : ∀ pr : Str × Regex, pr ∈ g1.properties ↔ pr ∈ g2.properties := by
    intro pr
    rw [mem_iff_lookupProp h1 pr, mem_iff_lookupProp h2 pr, h pr.1]
  rw [Bool.eq_iff_iff]
  simp only [MatchGroup.is_match, List.all_eq_true]
  constructor
  · intro hall pr hpr; exact hall pr ((hmem pr).mpr hpr)
  · intro hall pr hpr; exact hall pr ((hmem pr).mp hpr)

/-- A list with a member is not empty. -/
theorem isEmpty_false_of_mem {α : Type} {x : α} {l : List α} (h : x ∈ l) :
    l.isEmpty = false := by
  cases l with
  | nil => simp at h
  | cons a as => rfl

/-- Reduction of `Option.or` with a `some` on the left. -/
theorem some_or_eq {α : Type} (a : α) (o : Option α) : (some a).or o = some a := rfl

/-- Two sorted trees with the same group domain and pointwise
match-equivalent groups classify every event identically. -/
theorem tree_find_ext (e : Event) :
    ∀ (t1 t2 : List (Int × MatchGroup)), keysSorted t1 → keysSorted t2 →
    (∀ g, (lookupGroup g t1).isSome = (lookupGroup g t2).isSome) →
    (∀ g m1 m2, lookupGroup g t1 = some m1 → lookupGroup g t2 = some m2 →
      m1.is_match e = m2.is_match e) →
    (t1.find? (fun p => p.2.is_match e)).map (fun p => p.1) =
      (t2.find? (fun p => p.2.is_match e)).map (fun p => p.1) := by
  intro t1
  induction t1 with
  | nil =>
    intro t2 hs1 hs2 hiso hmm2
    cases t2 with
    | nil => rfl
    | cons kv2 rest2 =>
      exfalso
      obtain ⟨k2, m2⟩ := kv2
      have h := hiso k2
      simp [lookupGroup] at h
  | cons kv1 rest1 ih =>
    intro t2 hs1 hs2 hiso hmm2
    obtain ⟨k1, m1⟩ := kv1
    cases t2 with
    | nil =>
      exfalso
      have h := hiso k1
      simp [lookupGroup] at h
    | cons kv2 rest2 =>
      obtain ⟨k2, m2⟩ := kv2
      have hk : k1 = k2 := by
        rcases Int.lt_trichotomy k1 k2 with hlt | heq | hgt
        · exfalso
          have h := hiso k1
          have hl2 : lookupGroup k1 ((k2, m2) :: rest2) = none := by
            apply lookupGroup_eq_none
            intro kv hkv
            rcases List.mem_cons.mp hkv with rfl | hkv2
            · exact ne_of_lt hlt
            · exact ne_of_lt (lt_trans hlt (keysSorted_head_lt hs2 kv hkv2))
          rw [hl2] at h
          simp [lookupGroup] at h
        · exact heq
        · exfalso
          have h := hiso k2
          have hl1 : lookupGroup k2 ((k1, m1) :: rest1) = none := by
            apply lookupGroup_eq_none
            intro kv hkv
            rcases List.mem_cons.mp hkv with rfl | hkv2
            · exact ne_of_lt hgt
            · exact ne_of_lt (lt_trans hgt (keysSorted_head_lt hs1 kv hkv2))
          rw [hl1] at h
          simp [lookupGroup] at h
      subst hk
      have hm12 : m1.is_match e = m2.is_match e := by
        refine hmm2 k1 m1 m2 ?_ ?_ <;> simp [lookupGroup]
      cases hp : m1.is_match e with
      | true =>
        have hp2 : m2.is_match e = true := by rw [← hm12]; exact hp
        have hfA : List.find? (fun p : Int × MatchGroup => p.2.is_match e)
            ((k1, m1) :: rest1) = some (k1, m1) := by
          simp [List.find?, hp]
        have hfB : List.find? (fun p : Int × MatchGroup => p.2.is_match e)
            ((k1, m2) :: rest2) = some (k1, m2) := by
          simp [List.find?, hp2]
        rw [hfA, hfB]
        rfl
      | false =>
        have hp2 : m2.is_match e = false := by rw [← hm12]; exact hp
        have hfA : List.find? (fun p : Int × MatchGroup => p.2.is_match e)
            ((k1, m1) :: rest1) =
            List.find? (fun p : Int × MatchGroup => p.2.is_match e) rest1 := by
          simp [List.find?, hp]
        have hfB : List.find? (fun p : Int × MatchGroup => p.2.is_match e)
            ((k1, m2) :: rest2) =
            List.find? (fun p : Int × MatchGroup => p.2.is_match e) rest2 := by
          simp [List.find?, hp2]
        rw [hfA, hfB]
        refine ih rest2 (keysSorted_tail hs1) (keysSorted_tail hs2) ?_ ?_
        · intro g
          by_cases hg : g = k1
          · subst hg
            have h1 : lookupGroup g rest1 = none :=
              lookupGroup_eq_none (fun kv hkv =>
                ne_of_lt (keysSorted_head_lt hs1 kv hkv))
            have h2 : lookupGroup g rest2 = none :=
              lookupGroup_eq_none (fun kv hkv =>
                ne_of_lt (keysSorted_head_lt hs2 kv hkv))
            rw [h1, h2]
          · have h := hiso g
            simp only [lookupGroup, beq_eq_false_iff_ne.mpr hg, if_false] at h
            exact h
        · intro g mm1 mm2 hg1 hg2
          by_cases hg : g = k1
          · subst hg
            rw [lookupGroup_eq_none (fun kv hkv =>
              ne_of_lt (keysSorted_head_lt hs1 kv hkv))] at hg1
            exact absurd hg1 (by simp)
          · refine hmm2 g mm1 mm2 ?_ ?_ <;>
              simp [lookupGroup, beq_eq_false_iff_ne.mpr hg, hg1, hg2]

/-- C7: match-tree construction is last-write-wins per
(group id, property name): for every rule list containing two match
rules with the same group id and property name, the tree built from
the list classifies every event exactly as the tree built from the
list with the earlier of the two rules removed — the earlier pattern
has no effect on classification. -/
theorem C7_last_write_wins (l1 l2 l3 : List MatchRule) (r1 r2 : MatchRule)
    (hgid : r1.group_id = r2.group_id) (hprop : r1.property = r2.property)
    (e : Event) :
    (MatchTree.fromRules (l1 ++ r1 :: (l2 ++ r2 :: l3))).is_match e =
      (MatchTree.fromRules (l1 ++ (l2 ++ r2 :: l3))).is_match e := by
  simp only [MatchTree.is_match]
  have hfeq : ∀ g, ¬(r1.group_id = g) →
      (l1 ++ r1 :: (l2 ++ r2 :: l3)).filter (fun r => r.group_id == g) =
      (l1 ++ (l2 ++ r2 :: l3)).filter (fun r => r.group_id == g) := by
    intro g hg
    simp [List.filter_append, List.filter_cons, beq_eq_false_iff_ne.mpr hg]
  have hmemA : ∀ g, r1.group_id = g →
      r2 ∈ (l1 ++ r1 :: (l2 ++ r2 :: l3)).filter (fun r => r.group_id == g) := by
    intro g hg
    exact List.mem_filter.mpr ⟨by simp, beq_iff_eq.mpr (hgid ▸ hg)⟩
  have hmemB : ∀ g, r1.group_id = g →
      r2 ∈ (l1 ++ (l2 ++ r2 :: l3)).filter (fun r => r.group_id == g) := by
    intro g hg
    exact List.mem_filter.mpr ⟨by simp, beq_iff_eq.mpr (hgid ▸ hg)⟩
  apply tree_find_ext e _ _ (fromRules_tree_sorted _) (fromRules_tree_sorted _)
  · intro g
    rw [lookup_tree_fromRules, lookup_tree_fromRules]
    by_cases hg : r1.group_id = g
    · rw [if_neg (by rw [isEmpty_false_of_mem (hmemA g hg)]; simp),
        if_neg (by rw [isEmpty_false_of_mem (hmemB g hg)]; simp)]
      rfl
    · rw [hfeq g hg]
  · intro g mA mB hA hB
    rw [lookup_tree_fromRules] at hA hB
    by_cases hg : r1.group_id = g
    · rw [if_neg (by rw [isEmpty_false_of_mem (hmemA g hg)]; simp)] at hA
      rw [if_neg (by rw [isEmpty_false_of_mem (hmemB g hg)]; simp)] at hB
      obtain rfl := (Option.some_injective _ hA).symm
      obtain rfl := (Option.some_injective _ hB).symm
      apply is_match_congr
      · exact foldl_add_rule_unique _ ⟨[]⟩ List.Pairwise.nil
      · exact foldl_add_rule_unique _ ⟨[]⟩ List.Pairwise.nil
      · intro k
        rw [lookupProp_foldl_add_rule, lookupProp_foldl_add_rule]
        have hfA : (l1 ++ r1 :: (l2 ++ r2 :: l3)).filter (fun r => r.group_id == g) =
            (l1.filter (fun r => r.group_id == g)) ++
              (r1 :: ((l2.filter (fun r => r.group_id == g)) ++
                (r2 :: (l3.filter (fun r => r.group_id == g))))) := by
          simp [List.filter_append, List.filter_cons, beq_iff_eq.mpr hg,
            beq_iff_eq.mpr (hgid ▸ hg)]
        have hfB : (l1 ++ (l2 ++ r2 :: l3)).filter (fun r => r.group_id == g) =
            (l1.filter (fun r => r.group_id == g)) ++
              ((l2.filter (fun r => r.group_id == g)) ++
                (r2 :: (l3.filter (fun r => r.group_id == g)))) := by
          simp [List.filter_append, List.filter_cons, beq_iff_eq.mpr (hgid ▸ hg)]
        rw [hfA, hfB]
        simp only [List.reverse_append, List.reverse_cons, List.append_assoc,
          List.find?_append]
        by_cases hp : r2.property = k
        · have hfr2 : List.find? (fun r => r.property == k) [r2] = some r2 := by
            simp [List.find?, beq_iff_eq.mpr hp]
          rw [hfr2]
          rw [some_or_eq, some_or_eq]
        · have hfr2 : List.find? (fun r => r.property == k) [r2] = none := by
            simp [List.find?, beq_eq_false_iff_ne.mpr hp]
          have hfr1 : List.find? (fun r => r.property == k) [r1] = none := by
            simp [List.find?, beq_eq_false_iff_ne.mpr (hprop ▸ hp)]
          rw [hfr1, hfr2]
          simp [Option.none_or]
    · rw [hfeq g hg] at hA
      rw [hA] at hB
      obtain rfl := Option.some_injective _ hB
      rfl

/-- The earlier duplicate rule of the C7 witness: matches nothing. -/
def c7R1 : MatchRule := ⟨0, c10Name, fun _ => false⟩

/-- The later duplicate rule of the C7 witness: matches everything. -/
def c7R2 : MatchRule := ⟨0, c10Name, fun _ => true⟩

/-- The C7 witness event. -/
def c7Event : Event := ⟨[⟨c10Name, some ("Standup".toList)⟩]⟩

/-- Witness for C7 at a two-rule list with a duplicate key. -/
theorem C7_last_write_wins_witness :
    c7R1.group_id = c7R2.group_id ∧ c7R1.property = c7R2.property ∧
    (MatchTree.fromRules ([] ++ c7R1 :: ([] ++ c7R2 :: []))).is_match c7Event =
      (MatchTree.fromRules ([] ++ ([] ++ c7R2 :: []))).is_match c7Event :=
  ⟨rfl, rfl, C7_last_write_wins [] [] [] c7R1 c7R2 rfl rfl c7Event⟩

end ICalFilter
